import Mathlib

/-!
Verification of `dll-bundler` (src/dll-bundler.cpp): a tool that resolves
the DLL dependency closure of a Windows PE/COFF binary and copies the
resolved files next to the root binary.

The C++ program performs file-system and COFF-parsing effects through LLVM
(`llvm::MemoryBuffer::getFile`, `COFFObjectFile::create`,
`llvm::sys::fs::directory_iterator`, `llvm::sys::fs::copy_file`).  We embed
those effects as an explicit `World`: a map from paths to parse results, a
map from directory paths to enumeration outcomes, and a copy-success
oracle.  Every function of the program (`getDllImports`, `findImport`,
`checkFileArchitecture`, `main`) is translated to a pure Lean function
over a `World`; diagnostics printed to `llvm::errs()` become an explicit
log, and the `while` loop of `main` becomes a fuel-indexed loop whose
`none` result means the fuel ran out (the C++ loop has no fuel; theorems
about termination supply sufficient fuel explicitly).
-/

namespace DllBundler

/-- `llvm::Triple::ArchType`, restricted to the tags this program can
distinguish: `UnknownArch` (the initial value in `main`) plus concrete
architectures. -/
inductive Arch where
  | unknown
  | x86
  | x86x64
  | aarch64
  deriving DecidableEq, Repr

/-- ASCII lower-casing of one character, as `llvm::toLower` does inside
`StringRef::lower` / `equals_insensitive` (65–90 are the codes of A–Z). -/
def lowerChar (c : Char) : Char :=
  if 65 ≤ c.toNat ∧ c.toNat ≤ 90 then Char.ofNat (c.toNat + 32) else c

/-- `llvm::StringRef::lower()`: ASCII lower-casing of a string. -/
def lowerStr (s : String) : String :=
  ⟨s.data.map lowerChar⟩

/-- `llvm::StringRef::equals_insensitive` (equality up to ASCII case). -/
def eqInsensitive (a b : String) : Bool :=
  lowerStr a == lowerStr b

/-- `llvm::sys::path::filename`: the last component of a path (the part
after the last separator). -/
def filename (p : String) : String :=
  ⟨((p.data.reverse.takeWhile fun c => c ≠ '/').reverse)⟩

/-- `llvm::sys::path::parent_path`: everything before the last separator
(empty when the path has a single component). -/
def parentPath (p : String) : String :=
  match p.data.reverse.dropWhile fun c => c ≠ '/' with
  | [] => ""
  | _ :: rest => ⟨rest.reverse⟩

/-- `llvm::sys::path::append` of one component onto a base directory. -/
def joinPath (dir name : String) : String :=
  if dir = "" then name else dir ++ "/" ++ name

instance {ε α : Type} [DecidableEq ε] [DecidableEq α] : DecidableEq (Except ε α)
  | .error e, .error f =>
      if h : e = f then .isTrue (by rw [h]) else .isFalse (by intro c; cases c; exact h rfl)
  | .error _, .ok _ => .isFalse (by intro c; cases c)
  | .ok _, .error _ => .isFalse (by intro c; cases c)
  | .ok a, .ok b =>
      if h : a = b then .isTrue (by rw [h]) else .isFalse (by intro c; cases c; exact h rfl)

/-- One COFF file as the program observes it: its architecture
(`COFFObjectFile::getArch`) and its import / delay-import directory
tables.  Each table entry is the outcome of `dir.getName(name)`:
`.ok name` when the name decodes, `.error e` when it fails (the program
then prints the error code `e` and skips the entry). -/
structure FileData where
  arch : Arch
  importDirs : List (Except String String)
  delayImportDirs : List (Except String String)
  deriving DecidableEq, Repr

/-- One directory as `llvm::sys::fs::directory_iterator` enumerates it:
`entries` is the sequence of entry names in enumeration order, and
`failAfter = some n` means `it.increment(ec)` fails right after the entry
at index `n` was yielded (the program then `break`s out of the scan of
this directory). -/
structure DirState where
  entries : List String
  failAfter : Option Nat
  deriving DecidableEq, Repr

/-- The file-system world the program runs against.
`files path` is the combined outcome of `MemoryBuffer::getFile` +
`openCOFFObject`: `.error e` when the file cannot be opened or parsed as
COFF (with error message `e`), `.ok fd` when it parses.  `dirs path` is
`none` when constructing a `directory_iterator` on `path` fails (missing
directory, permission denied), otherwise the enumeration outcome.
`copyOk src dst` tells whether `llvm::sys::fs::copy_file src dst`
succeeds; the program discards this error code. -/
structure World where
  files : String → Except String FileData
  dirs : String → Option DirState
  copyOk : String → String → Bool

/-- Messages the program writes to its output streams, in order.
`usage` goes to stdout; all the others go to `llvm::errs()`. -/
inductive LogMsg where
  | usage
  | errNoBinary
  | errNoSearchPath
  | parseError (msg : String)
  | decodeError (msg : String)
  | skipped (path : String)
  | progress (src dst : String)
  deriving DecidableEq, Repr

/-- The loops of `getDllImports` over one import directory table:
decodable names are collected in order, a `dir.getName` failure prints
the error code and skips the entry. -/
def decodeEntries : List (Except String String) → List String × List LogMsg
  | [] => ([], [])
  | .error e :: rest =>
      let (ns, ls) := decodeEntries rest
      (ns, .decodeError e :: ls)
  | .ok n :: rest =>
      let (ns, ls) := decodeEntries rest
      (n :: ns, ls)

/-- `getDllImports(filePath, &fileArch)`: open and parse the file; on
success return its architecture, its import names (standard table first,
then delay-load table), and the diagnostics printed for undecodable
entries.  On open/parse failure return the error code. -/
def getDllImports (w : World) (filePath : String) :
    Except String (Arch × List String × List LogMsg) :=
  match w.files filePath with
  | .error e => .error e
  | .ok fd =>
      let (ns1, ls1) := decodeEntries fd.importDirs
      let (ns2, ls2) := decodeEntries fd.delayImportDirs
      .ok (fd.arch, ns1 ++ ns2, ls1 ++ ls2)

/-- `checkFileArchitecture(filePath, dllArch)`: `false` when the file
cannot be opened or parsed, otherwise whether its architecture equals
`dllArch`. -/
def checkFileArchitecture (w : World) (filePath : String) (dllArch : Arch) : Bool :=
  match w.files filePath with
  | .error _ => false
  | .ok fd => fd.arch = dllArch

/-- The `while (it != directory_iterator())` loop of `findImport` over one
directory: `names` are the entries not yet examined, `idx` the index of
the first of them, `failAfter` the directory's increment-failure point.
Each entry's path is `joinPath dir name`; a case-insensitive file-name
match with the right architecture returns immediately; a name match with
the wrong architecture prints `Skipped:`; after examining an entry the
loop `break`s when `it.increment` fails there. -/
def scanEntries (w : World) (dllImport : String) (dllArch : Arch) (dir : String) :
    List String → Nat → Option Nat → Option String × List LogMsg
  | [], _, _ => (none, [])
  | name :: rest, idx, failAfter =>
      let filePath := joinPath dir name
      if eqInsensitive (filename filePath) dllImport then
        if checkFileArchitecture w filePath dllArch then
          (some filePath, [])
        else
          if failAfter = some idx then (none, [.skipped filePath])
          else
            let (r, l) := scanEntries w dllImport dllArch dir rest (idx + 1) failAfter
            (r, .skipped filePath :: l)
      else
        if failAfter = some idx then (none, [])
        else scanEntries w dllImport dllArch dir rest (idx + 1) failAfter

/-- `findImport(dllImport, dllArch, searchPaths)`: scan the search
directories in order; a directory whose iterator cannot be constructed is
skipped silently; the first name-matching entry with the right
architecture is returned; exhaustion yields the empty string. -/
def findImport (w : World) (dllImport : String) (dllArch : Arch) :
    List String → String × List LogMsg
  | [] => ("", [])
  | dir :: restDirs =>
      match w.dirs dir with
      | none => findImport w dllImport dllArch restDirs
      | some d =>
          match scanEntries w dllImport dllArch dir d.entries 0 d.failAfter with
          | (some p, l) => (p, l)
          | (none, l) =>
              let (r, l2) := findImport w dllImport dllArch restDirs
              (r, l ++ l2)

/-- The mutable state of `main`'s resolution loop: the `processed`
string set (modelled as its insertion-ordered list of lower-cased keys),
the `toProcess` FIFO queue (head = front), the diagnostics written so
far, and the copies attempted so far (source, destination, and whether
`copy_file` succeeded — an error code the program discards). -/
structure LoopState where
  processed : List String
  queue : List String
  log : List LogMsg
  copies : List (String × String × Bool)
  deriving DecidableEq, Repr

/-- The `while (!toProcess.empty())` loop of `main`, with explicit fuel:
`none` means the fuel ran out before the queue drained.  Each iteration
pops the front, lower-cases it, drops it if already processed, otherwise
records it as processed, locates it, and on a hit reports and attempts
the copy and enqueues the found file's own imports (parse failures of a
found file are ignored). -/
def runLoop (w : World) (dllArch : Arch) (searchPaths : List String)
    (rootBinaryDir : String) : Nat → LoopState → Option LoopState
  | 0, _ => none
  | fuel + 1, s =>
      match s.queue with
      | [] => some s
      | front :: restQ =>
          let imp := lowerStr front
          if imp ∈ s.processed then
            runLoop w dllArch searchPaths rootBinaryDir fuel { s with queue := restQ }
          else
            let s1 : LoopState :=
              { s with processed := s.processed ++ [imp], queue := restQ }
            let (fullPath, flog) := findImport w imp dllArch searchPaths
            let s2 : LoopState := { s1 with log := s1.log ++ flog }
            if fullPath = "" then
              runLoop w dllArch searchPaths rootBinaryDir fuel s2
            else
              let destinationPath := joinPath rootBinaryDir (filename fullPath)
              let ok := w.copyOk fullPath destinationPath
              let s3 : LoopState :=
                { s2 with
                  log := s2.log ++ [.progress fullPath destinationPath]
                  copies := s2.copies ++ [(fullPath, destinationPath, ok)] }
              match getDllImports w fullPath with
              | .error _ => runLoop w dllArch searchPaths rootBinaryDir fuel s3
              | .ok (_, imports, ilog) =>
                  runLoop w dllArch searchPaths rootBinaryDir fuel
                    { s3 with log := s3.log ++ ilog, queue := s3.queue ++ imports }

/-- The observable outcome of one program run: exit code, output messages
in order, and the attempted copies. -/
structure RunResult where
  exitCode : Int
  log : List LogMsg
  copies : List (String × String × Bool)
  deriving DecidableEq, Repr

/-- `main` after `getopt` option parsing: `wantHelp` is true when `-h`
was given or there were no arguments, `searchPaths` the accumulated `-L`
directories, `positionals` the remaining arguments.  The checks happen in
source order: help, positional count, empty search path list, root parse;
then the resolution loop runs (with explicit fuel) and the program exits
0 when the queue drains. -/
def runMain (w : World) (wantHelp : Bool) (searchPaths : List String)
    (positionals : List String) (fuel : Nat) : Option RunResult :=
  if wantHelp then some ⟨0, [.usage], []⟩
  else
    match positionals with
    | [rootBinaryFile] =>
        if searchPaths.isEmpty then some ⟨1, [.errNoSearchPath], []⟩
        else
          let rootBinaryDir := parentPath rootBinaryFile
          match getDllImports w rootBinaryFile with
          | .error e => some ⟨1, [.parseError e], []⟩
          | .ok (dllArch, imports, ilog) =>
              match runLoop w dllArch searchPaths rootBinaryDir fuel
                  ⟨[], imports, ilog, []⟩ with
              | none => none
              | some s => some ⟨0, s.log, s.copies⟩
    | _ => some ⟨1, [.errNoBinary], []⟩

/-! ### Declarative view of `findImport`

`findImport` is characterised as a first-hit search over the flat ordered
list of candidate entry paths produced by enumerating the search
directories in caller order. -/

/-- The entries of a directory that the scan loop actually examines,
starting from index `idx`: all of them, or — when `it.increment` fails at
index `n` — only those up to and including index `n`. -/
def truncAt (idx : Nat) (failAfter : Option Nat) (es : List String) : List String :=
  match failAfter with
  | none => es
  | some n => es.take (n + 1 - idx)

/-- The entries of a directory examined by a scan that starts at the
beginning. -/
def examined (d : DirState) : List String :=
  truncAt 0 d.failAfter d.entries

/-- The candidate entry paths one search directory contributes, in
enumeration order (none when the directory cannot be opened). -/
def candidatesIn (w : World) (dir : String) : List String :=
  match w.dirs dir with
  | none => []
  | some d => (examined d).map (joinPath dir)

/-- All candidate entry paths of a search-path list, in scan order. -/
def candidates (w : World) (searchPaths : List String) : List String :=
  (searchPaths.map (candidatesIn w)).flatten

/-- Whether a candidate path's file name equals the looked-up module name
up to ASCII case. -/
def nameMatches (dllImport p : String) : Bool :=
  eqInsensitive (filename p) dllImport

/-- Whether a candidate path is a hit: name matches and the file's
architecture checks out. -/
def isHit (w : World) (dllImport : String) (dllArch : Arch) (p : String) : Bool :=
  nameMatches dllImport p && checkFileArchitecture w p dllArch

/-- The directory scan loop, rephrased over a flat list of candidate
paths with no enumeration failure: the reference against which
`scanEntries` is proved. -/
def scanPaths (w : World) (dllImport : String) (dllArch : Arch) :
    List String → Option String × List LogMsg
  | [] => (none, [])
  | p :: rest =>
      if nameMatches dllImport p then
        if checkFileArchitecture w p dllArch then (some p, [])
        else
          let (r, l) := scanPaths w dllImport dllArch rest
          (r, .skipped p :: l)
      else scanPaths w dllImport dllArch rest

/-! ### Derived definitions used by the specification layer -/

/-- The names of the entries of one import directory table that decode
successfully, in table order. -/
def decodedNames (l : List (Except String String)) : List String :=
  l.filterMap fun e => match e with | .ok n => some n | .error _ => none

/-- The error messages of the entries of one import directory table that
fail to decode, in table order. -/
def decodeFailures (l : List (Except String String)) : List String :=
  l.filterMap fun e => match e with | .ok _ => none | .error m => some m

/-- The import names a file contributes to the queue when the loop finds
and re-parses it (none when it cannot be parsed). -/
def importNamesOf (w : World) (p : String) : List String :=
  match w.files p with
  | .error _ => []
  | .ok fd => decodedNames fd.importDirs ++ decodedNames fd.delayImportDirs

/-- Upper bound on the set of lower-cased names the loop can ever
process: the root's import names together with the import names of every
candidate file any search directory can offer. -/
def univNames (w : World) (sp : List String) (rootImports : List String) :
    List String :=
  ((rootImports ++ (candidates w sp).flatMap (importNamesOf w)).map lowerStr).dedup

/-- Upper bound on how many names one processed file can enqueue. -/
def maxImports (w : World) (sp : List String) : Nat :=
  ((candidates w sp).map fun p => (importNamesOf w p).length).foldr max 0

/-- Invariant carried by the termination argument: the visited set has
no duplicates and only holds names from the finite universe, and every
queued name lower-cases into the universe. -/
def LoopInv (univ : List String) (s : LoopState) : Prop :=
  s.processed.Nodup ∧ (∀ x ∈ s.processed, x ∈ univ) ∧
    ∀ x ∈ s.queue, lowerStr x ∈ univ

/-- Decreasing measure for the loop: queued work plus capacity left in
the visited set, weighted so that processing a new name pays for the
imports it enqueues. -/
def loopMeasure (c n : Nat) (s : LoopState) : Nat :=
  s.queue.length + c * (n - s.processed.length)

/-- Forgets the copy success flags — the error codes `main` discards. -/
def stripCopies (cs : List (String × String × Bool)) : List (String × String) :=
  cs.map fun t => (t.1, t.2.1)

/-- A loop state up to the discarded copy success flags. -/
def stripState (s : LoopState) :
    List String × List String × List LogMsg × List (String × String) :=
  (s.processed, s.queue, s.log, stripCopies s.copies)

/-! ### Concrete worlds for witnesses and counterexamples -/

/-- A small concrete file system: `app.exe` (x86) imports `A.DLL` (with
one undecodable table entry) and, via its delay-load table, `a.dll`;
directory `libs` holds an x86 `a.dll` — which itself imports `b.dll` —
and an x86-64 `b.dll`. -/
def W1files : String → Except String FileData := fun p =>
  if p = "app.exe" then
    .ok ⟨.x86, [.ok "A.DLL", .error "bad entry"], [.ok "a.dll"]⟩
  else if p = "libs/a.dll" then .ok ⟨.x86, [.ok "b.dll"], []⟩
  else if p = "libs/b.dll" then .ok ⟨.x86x64, [], []⟩
  else .error "no such file"

/-- The concrete world in which every copy succeeds. -/
def W1 : World where
  files := W1files
  dirs := fun d => if d = "libs" then some ⟨["a.dll", "b.dll"], none⟩ else none
  copyOk := fun _ _ => true

/-- The same world except that every copy fails. -/
def W1fail : World := { W1 with copyOk := fun _ _ => false }

/-- The same file system, but enumerating `libs` fails right after its
first entry. -/
def W2 : World where
  files := W1files
  dirs := fun d => if d = "libs" then some ⟨["a.dll", "b.dll"], some 0⟩ else none
  copyOk := fun _ _ => true

theorem scanPaths_eq (w : World) (imp : String) (arch : Arch) (ps : List String) :
    scanPaths w imp arch ps =
      ((ps.filter (isHit w imp arch)).head?,
       ((ps.takeWhile fun p => !isHit w imp arch p).filter (nameMatches imp)).map
         LogMsg.skipped) := by
  induction ps with
  | nil => rfl
  | cons p rest ih =>
      cases h1 : nameMatches imp p with
      | false =>
          have hh : isHit w imp arch p = false := by simp [isHit, h1]
          simp [scanPaths, h1, hh, List.filter_cons, List.takeWhile_cons, ih]
      | true =>
          cases h2 : checkFileArchitecture w p arch with
          | false =>
              have hh : isHit w imp arch p = false := by simp [isHit, h1, h2]
              simp [scanPaths, h1, h2, hh, List.filter_cons, List.takeWhile_cons, ih]
          | true =>
              have hh : isHit w imp arch p = true := by simp [isHit, h1, h2]
              simp [scanPaths, h1, h2, hh, List.filter_cons, List.takeWhile_cons]

theorem scanEntries_eq_scanPaths (w : World) (imp : String) (arch : Arch)
    (dir : String) :
    ∀ (es : List String) (idx : Nat) (fa : Option Nat),
      (∀ n, fa = some n → idx ≤ n) →
      scanEntries w imp arch dir es idx fa =
        scanPaths w imp arch ((truncAt idx fa es).map (joinPath dir)) := by
  intro es
  induction es with
  | nil =>
      intro idx fa _
      cases fa <;> simp [scanEntries, scanPaths, truncAt]
  | cons name rest ih =>
      intro idx fa hfa
      cases fa with
      | none =>
          have hrest := ih (idx + 1) none (by intro n hn; cases hn)
          simp only [truncAt] at hrest ⊢
          simp only [scanEntries, scanPaths, List.map_cons]
          simp [hrest, nameMatches]
      | some n =>
          have hidx : idx ≤ n := hfa n rfl
          rcases Nat.eq_or_lt_of_le hidx with heq | hlt
          · subst heq
            have htake : idx + 1 - idx = 1 := by omega
            simp only [truncAt, htake, List.take_succ_cons, List.take_zero,
              List.map_cons, List.map_nil]
            simp [scanEntries, scanPaths, nameMatches]
          · have hne : ¬ (some n = some idx) := by
              intro hc; cases hc; omega
            have hrest := ih (idx + 1) (some n) (by intro m hm; cases hm; omega)
            have htake : n + 1 - idx = (n - idx) + 1 := by omega
            have htake2 : n + 1 - (idx + 1) = n - idx := by omega
            simp only [truncAt, htake2] at hrest
            simp only [truncAt, htake, List.take_succ_cons, List.map_cons]
            simp [scanEntries, scanPaths, hne, hrest, nameMatches]

theorem takeWhile_append_of_forall {α : Type} (p : α → Bool) (l1 l2 : List α)
    (h : ∀ x ∈ l1, p x = true) :
    (l1 ++ l2).takeWhile p = l1 ++ l2.takeWhile p := by
  rw [List.takeWhile_append, if_pos]
  rw [List.takeWhile_eq_self_iff.2 h]

theorem takeWhile_append_of_exists {α : Type} (p : α → Bool) (l1 l2 : List α)
    (h : ∃ x ∈ l1, p x = false) :
    (l1 ++ l2).takeWhile p = l1.takeWhile p := by
  rw [List.takeWhile_append, if_neg]
  intro hlen
  have hself : l1.takeWhile p = l1 :=
    (List.takeWhile_prefix p).eq_of_length hlen
  obtain ⟨x, hx, hpx⟩ := h
  have := List.takeWhile_eq_self_iff.1 hself x hx
  rw [hpx] at this
  exact Bool.false_ne_true this

/-- Full characterisation of `findImport`: the returned path is the first
candidate (in search order) whose name matches case-insensitively and
whose architecture checks out, or the empty string when there is none;
the diagnostics are exactly one `Skipped:` line for every name-matching,
architecture-failing candidate encountered before that first hit. -/
theorem findImport_eq_spec (w : World) (imp : String) (arch : Arch)
    (sp : List String) :
    findImport w imp arch sp =
      (((candidates w sp).filter (isHit w imp arch)).headD "",
       (((candidates w sp).takeWhile fun p => !isHit w imp arch p).filter
          (nameMatches imp)).map LogMsg.skipped) := by
  induction sp with
  | nil => rfl
  | cons dir rest ih =>
      have hcand : candidates w (dir :: rest) = candidatesIn w dir ++ candidates w rest := by
        simp [candidates]
      cases hd : w.dirs dir with
      | none =>
          have hc : candidatesIn w dir = [] := by simp [candidatesIn, hd]
          rw [hcand, hc, List.nil_append]
          simpa [findImport, hd] using ih
      | some d =>
          have hscan := scanEntries_eq_scanPaths w imp arch dir d.entries 0 d.failAfter
            (fun n _ => Nat.zero_le n)
          have hc : candidatesIn w dir = (examined d).map (joinPath dir) := by
            simp [candidatesIn, hd]
          rw [scanPaths_eq] at hscan
          have hex0 : truncAt 0 d.failAfter d.entries = examined d := rfl
          rw [hex0] at hscan
          rw [hcand, hc]
          set cs1 := (examined d).map (joinPath dir) with hcs1
          cases hfilter : cs1.filter (isHit w imp arch) with
          | nil =>
              have hall : ∀ x ∈ cs1, (!isHit w imp arch x) = true := by
                intro x hx
                have := List.filter_eq_nil_iff.1 hfilter x hx
                simp [this]
              rw [takeWhile_append_of_forall _ _ _ hall, List.filter_append,
                List.filter_append, hfilter, List.nil_append, List.map_append]
              have hscan2 : scanEntries w imp arch dir d.entries 0 d.failAfter =
                  (none, ((cs1.takeWhile fun p => !isHit w imp arch p).filter
                    (nameMatches imp)).map LogMsg.skipped) := by
                rw [hscan, hfilter]; rfl
              simp only [findImport, hd, hscan2, ih]
              have hcs1self : cs1.takeWhile (fun p => !isHit w imp arch p) = cs1 :=
                List.takeWhile_eq_self_iff.2 hall
              rw [hcs1self]
          | cons p ps =>
              have hex : ∃ x ∈ cs1, (!isHit w imp arch x) = false := by
                have hp : p ∈ cs1.filter (isHit w imp arch) := by
                  rw [hfilter]; exact List.mem_cons_self p ps
                rcases List.mem_filter.1 hp with ⟨hmem, hhit⟩
                exact ⟨p, hmem, by simp [hhit]⟩
              rw [takeWhile_append_of_exists _ _ _ hex, List.filter_append, hfilter]
              have hscan2 : scanEntries w imp arch dir d.entries 0 d.failAfter =
                  (some p, ((cs1.takeWhile fun p => !isHit w imp arch p).filter
                    (nameMatches imp)).map LogMsg.skipped) := by
                rw [hscan, hfilter]; rfl
              simp [findImport, hd, hscan2]

/-! ### Lower-casing is a normalisation -/

theorem toNat_ofNat_of_valid {n : Nat} (h : Nat.isValidChar n) :
    (Char.ofNat n).toNat = n := by
  unfold Char.ofNat
  rw [dif_pos h]
  rfl

theorem lowerChar_idem (c : Char) : lowerChar (lowerChar c) = lowerChar c := by
  unfold lowerChar
  by_cases h : 65 ≤ c.toNat ∧ c.toNat ≤ 90
  · rw [if_pos h, if_neg]
    intro hc
    have hv : Nat.isValidChar (c.toNat + 32) := Or.inl (by omega)
    rw [toNat_ofNat_of_valid hv] at hc
    omega
  · rw [if_neg h, if_neg h]

theorem lowerStr_idem (s : String) : lowerStr (lowerStr s) = lowerStr s := by
  apply congrArg String.mk
  show (s.data.map lowerChar).map lowerChar = s.data.map lowerChar
  rw [List.map_map]
  exact List.map_congr_left fun c _ => lowerChar_idem c

/-! ### Declarative view of `getDllImports` -/

theorem decodeEntries_eq (l : List (Except String String)) :
    decodeEntries l = (decodedNames l, (decodeFailures l).map LogMsg.decodeError) := by
  induction l with
  | nil => rfl
  | cons e rest ih =>
      cases e <;>
        simp [decodeEntries, decodedNames, decodeFailures, List.filterMap_cons, ih]

/-! ### Claim theorems (part 1) -/

/-- C2: for every module name, required architecture and ordered
search-path list, `findImport` returns the first candidate entry, in
directory order then enumeration order, whose file name equals the module
name case-insensitively and whose architecture matches (the empty string
when there is none), and reports exactly one `Skipped:` diagnostic for
every name-matching wrong-architecture candidate scanned before that
first hit.  In particular, when two directories both contain an
architecture-matching file of the name, the one from the earlier-listed
directory is returned. -/
theorem claim_C2_first_hit_wins (w : World) (imp : String) (arch : Arch)
    (sp : List String) :
    findImport w imp arch sp =
      (((candidates w sp).filter (isHit w imp arch)).headD "",
       (((candidates w sp).takeWhile fun p => !isHit w imp arch p).filter
          (nameMatches imp)).map LogMsg.skipped) :=
  findImport_eq_spec w imp arch sp

/-- C5: when the root binary cannot be read or parsed, `main` reports the
parse error, exits with status 1, performs no copies, and — the result
being the same for every amount of fuel — never runs the resolution
loop. -/
theorem claim_C5_root_parse_error_fatal (w : World) (root e : String)
    (sp : List String) (hsp : sp ≠ []) (h : w.files root = .error e)
    (fuel : Nat) :
    runMain w false sp [root] fuel = some ⟨1, [.parseError e], []⟩ := by
  have hsp' : sp.isEmpty = false := by
    cases sp with
    | nil => exact absurd rfl hsp
    | cons a l => rfl
  simp [runMain, hsp', getDllImports, h]

/-- C6: for every successfully parsed binary, `getDllImports` succeeds
and returns, in container-table order, the decodable standard import
entry names followed by the decodable delay-load entry names; each entry
whose name fails to decode contributes one diagnostic instead of failing
the parse. -/
theorem claim_C6_imports_in_table_order (w : World) (p : String)
    (fd : FileData) (h : w.files p = .ok fd) :
    getDllImports w p = .ok (fd.arch,
      decodedNames fd.importDirs ++ decodedNames fd.delayImportDirs,
      ((decodeFailures fd.importDirs).map LogMsg.decodeError) ++
        ((decodeFailures fd.delayImportDirs).map LogMsg.decodeError)) := by
  simp [getDllImports, h, decodeEntries_eq]

/-- C7: `checkFileArchitecture` never propagates an error: it returns
`false` whenever the candidate cannot be opened or parsed, and returns
`true` exactly when the candidate parses and its architecture equals the
required one. -/
theorem claim_C7_arch_filter_total (w : World) (p : String) (a : Arch) :
    (∀ e, w.files p = .error e → checkFileArchitecture w p a = false) ∧
    (checkFileArchitecture w p a = true ↔
      ∃ fd, w.files p = .ok fd ∧ fd.arch = a) := by
  constructor
  · intro e he
    simp [checkFileArchitecture, he]
  · cases hf : w.files p with
    | error e => simp [checkFileArchitecture, hf]
    | ok fd => simp [checkFileArchitecture, hf]

/-- C8: with a root binary given but zero `-L` search paths, `main`
prints the error message and exits with status 1; the result is the same
for every world and every amount of fuel, so no file is read, nothing is
copied, and the resolution loop never starts. -/
theorem claim_C8_no_search_path_is_fatal (w : World) (root : String)
    (fuel : Nat) :
    runMain w false [] [root] fuel = some ⟨1, [.errNoSearchPath], []⟩ := rfl

/-- C9: a search directory whose iterator cannot be constructed is
skipped with no diagnostic and the scan moves on to the remaining
directories; and when no candidate in any directory is an
architecture-matching name hit, `findImport` returns the empty string
(not-found), which is a normal result, not an error. -/
theorem claim_C9_unopenable_dir_silently_skipped (w : World) (imp : String)
    (arch : Arch) (dir : String) (rest sp : List String) :
    (w.dirs dir = none →
      findImport w imp arch (dir :: rest) = findImport w imp arch rest) ∧
    ((candidates w sp).filter (isHit w imp arch) = [] →
      (findImport w imp arch sp).1 = "") := by
  constructor
  · intro h
    simp [findImport, h]
  · intro hfilter
    rw [findImport_eq_spec]
    simp [hfilter]

/-- C10: when enumerating one search directory fails after the entry at
index `n` (the iterator was constructed, then `increment` errored), the
locate behaves exactly as if that directory contained only its first
`n + 1` entries: the remaining entries are abandoned with no diagnostic,
every subsequent search directory is still scanned, and the function
still returns a found path or not-found. -/
theorem claim_C10_enum_failure_truncates (w : World) (imp : String)
    (arch : Arch) (dir : String) (es : List String) (n : Nat)
    (sp : List String) (h : w.dirs dir = some ⟨es, some n⟩) :
    findImport w imp arch sp =
      findImport
        { w with dirs := fun d =>
            if d = dir then some ⟨es.take (n + 1), none⟩ else w.dirs d }
        imp arch sp := by
  set w' : World :=
    { w with dirs := fun d =>
        if d = dir then some ⟨es.take (n + 1), none⟩ else w.dirs d } with hw'
  have hcIn : ∀ d, candidatesIn w' d = candidatesIn w d := by
    intro d
    by_cases hdd : d = dir
    · subst hdd
      simp [candidatesIn, hw', h, examined, truncAt]
    · simp [candidatesIn, hw', hdd]
  have hcand : candidates w' sp = candidates w sp := by
    unfold candidates
    rw [funext hcIn]
  rw [findImport_eq_spec w, findImport_eq_spec w', hcand]
  rfl

/-! ### The visited set of the resolution loop -/

theorem processed_insert_inv (pr : List String) (front : String)
    (h1 : pr.Nodup) (h2 : ∀ x ∈ pr, lowerStr x = x)
    (hmem : lowerStr front ∉ pr) :
    (pr ++ [lowerStr front]).Nodup ∧
      ∀ x ∈ pr ++ [lowerStr front], lowerStr x = x := by
  constructor
  · rw [(List.perm_append_singleton _ _).nodup_iff, List.nodup_cons]
    exact ⟨hmem, h1⟩
  · intro x hx
    rcases List.mem_append.1 hx with hx | hx
    · exact h2 x hx
    · rcases List.mem_singleton.1 hx with rfl
      exact lowerStr_idem front

/-- Every state the resolution loop reaches keeps the `processed` set
duplicate-free and lower-cased: a case-insensitive module name is
inserted (and hence looked up, copied and re-parsed) at most once. -/
theorem runLoop_processed_inv (w : World) (arch : Arch) (sp : List String)
    (rootDir : String) :
    ∀ (fuel : Nat) (s s' : LoopState),
      runLoop w arch sp rootDir fuel s = some s' →
      s.processed.Nodup → (∀ x ∈ s.processed, lowerStr x = x) →
      s'.processed.Nodup ∧ ∀ x ∈ s'.processed, lowerStr x = x := by
  intro fuel
  induction fuel with
  | zero =>
      intro s s' hrun _ _
      simp [runLoop] at hrun
  | succ fuel ih =>
      intro s s' hrun h1 h2
      obtain ⟨pr, q, lg, cp⟩ := s
      cases q with
      | nil =>
          simp only [runLoop] at hrun
          cases hrun
          exact ⟨h1, h2⟩
      | cons front restQ =>
          simp only [runLoop] at hrun
          by_cases hmem : lowerStr front ∈ pr
          · rw [if_pos hmem] at hrun
            exact ih _ _ hrun h1 h2
          · rw [if_neg hmem] at hrun
            rcases hfi : findImport w (lowerStr front) arch sp with ⟨fp, fl⟩
            rw [hfi] at hrun
            simp only at hrun
            obtain ⟨h1', h2'⟩ := processed_insert_inv pr front h1 h2 hmem
            by_cases hfp : fp = ""
            · rw [if_pos hfp] at hrun
              exact ih _ _ hrun h1' h2'
            · rw [if_neg hfp] at hrun
              rcases hgi : getDllImports w fp with e | ⟨a2, imports, ilog⟩ <;>
                rw [hgi] at hrun <;> simp only at hrun <;>
                exact ih _ _ hrun h1' h2'

/-! ### Termination of the resolution loop -/

theorem getDllImports_ok_names {w : World} {p : String} {a : Arch}
    {ns : List String} {lg : List LogMsg}
    (h : getDllImports w p = .ok (a, ns, lg)) : ns = importNamesOf w p := by
  cases hf : w.files p with
  | error e => simp [getDllImports, hf] at h
  | ok fd =>
      simp only [getDllImports, hf, decodeEntries_eq, Except.ok.injEq,
        Prod.mk.injEq] at h
      simp [importNamesOf, hf, h.2.1.symm]

theorem mem_le_foldr_max (l : List Nat) (a : Nat) (h : a ∈ l) :
    a ≤ l.foldr max 0 := by
  induction l with
  | nil => cases h
  | cons b rest ih =>
      rcases List.mem_cons.1 h with rfl | h2
      · exact Nat.le_max_left _ _
      · exact Nat.le_trans (ih h2) (Nat.le_max_right _ _)

theorem importNamesOf_le_maxImports (w : World) (sp : List String)
    (p : String) (h : p ∈ candidates w sp) :
    (importNamesOf w p).length ≤ maxImports w sp :=
  mem_le_foldr_max _ _ (List.mem_map.2 ⟨p, h, rfl⟩)

theorem findImport_found_mem_candidates (w : World) (imp : String)
    (arch : Arch) (sp : List String)
    (hne : (findImport w imp arch sp).1 ≠ "") :
    (findImport w imp arch sp).1 ∈ candidates w sp := by
  rw [findImport_eq_spec] at hne ⊢
  cases hfl : (candidates w sp).filter (isHit w imp arch) with
  | nil => rw [hfl] at hne; simp at hne
  | cons p ps =>
      have hp : p ∈ (candidates w sp).filter (isHit w imp arch) := by
        rw [hfl]; exact List.mem_cons_self p ps
      exact (List.mem_filter.1 hp).1

theorem runLoop_drains (w : World) (arch : Arch) (sp : List String)
    (rootDir : String) (rootImports : List String) :
    ∀ (fuel : Nat) (s : LoopState),
      LoopInv (univNames w sp rootImports) s →
      loopMeasure (maxImports w sp + 1) (univNames w sp rootImports).length s
          < fuel →
      ∃ s', runLoop w arch sp rootDir fuel s = some s' := by
  set univ := univNames w sp rootImports with huniv
  set c := maxImports w sp + 1 with hc
  intro fuel
  induction fuel with
  | zero =>
      intro s _ hm
      exact absurd hm (Nat.not_lt_zero _)
  | succ fuel ih =>
      intro s hinv hm
      obtain ⟨pr, q, lg, cp⟩ := s
      obtain ⟨hnd, hpru, hqu⟩ := hinv
      cases q with
      | nil => exact ⟨_, rfl⟩
      | cons front restQ =>
          simp only [runLoop]
          have himp : lowerStr front ∈ univ := hqu front (List.mem_cons_self _ _)
          simp only [loopMeasure, List.length_cons] at hm
          by_cases hmem : lowerStr front ∈ pr
          · rw [if_pos hmem]
            apply ih ⟨pr, restQ, lg, cp⟩
            · exact ⟨hnd, hpru, fun x hx => hqu x (List.mem_cons_of_mem _ hx)⟩
            · simp only [loopMeasure]
              generalize c * (univ.length - pr.length) = P at hm ⊢
              omega
          · rw [if_neg hmem]
            have hnd' : (pr ++ [lowerStr front]).Nodup := by
              rw [(List.perm_append_singleton _ _).nodup_iff, List.nodup_cons]
              exact ⟨hmem, hnd⟩
            have hpru' : ∀ x ∈ pr ++ [lowerStr front], x ∈ univ := by
              intro x hx
              rcases List.mem_append.1 hx with hx | hx
              · exact hpru x hx
              · rcases List.mem_singleton.1 hx with rfl
                exact himp
            have hlen : pr.length + 1 ≤ univ.length := by
              have := (hnd'.subperm hpru').length_le
              simpa [List.length_append] using this
            have hsplit : c * (univ.length - pr.length) =
                c * (univ.length - (pr.length + 1)) + c := by
              rw [show univ.length - pr.length =
                (univ.length - (pr.length + 1)) + 1 by omega, Nat.mul_succ]
            rcases hfi : findImport w (lowerStr front) arch sp with ⟨fp, fl⟩
            dsimp only
            by_cases hfp : fp = ""
            · rw [if_pos hfp]
              apply ih ⟨pr ++ [lowerStr front], restQ, lg ++ fl, cp⟩
              · exact ⟨hnd', hpru',
                  fun x hx => hqu x (List.mem_cons_of_mem _ hx)⟩
              · simp only [loopMeasure, List.length_append, List.length_cons,
                  List.length_nil]
                rw [hsplit] at hm
                generalize c * (univ.length - (pr.length + 1)) = P at hm ⊢
                omega
            · rw [if_neg hfp]
              have hfpc : fp ∈ candidates w sp := by
                have := findImport_found_mem_candidates w (lowerStr front) arch sp
                rw [hfi] at this
                exact this hfp
              rcases hgi : getDllImports w fp with e | ⟨a2, imports, ilog⟩ <;>
                dsimp only
              · apply ih ⟨pr ++ [lowerStr front], restQ, _, _⟩
                · exact ⟨hnd', hpru',
                    fun x hx => hqu x (List.mem_cons_of_mem _ hx)⟩
                · simp only [loopMeasure, List.length_append, List.length_cons,
                    List.length_nil]
                  rw [hsplit] at hm
                  generalize c * (univ.length - (pr.length + 1)) = P at hm ⊢
                  omega
              · have himports : imports = importNamesOf w fp :=
                  getDllImports_ok_names hgi
                have hk : imports.length + 1 ≤ c := by
                  rw [hc, himports]
                  exact Nat.succ_le_succ (importNamesOf_le_maxImports w sp fp hfpc)
                apply ih ⟨pr ++ [lowerStr front], restQ ++ imports, _, _⟩
                · refine ⟨hnd', hpru', ?_⟩
                  intro x hx
                  rcases List.mem_append.1 hx with hx | hx
                  · exact hqu x (List.mem_cons_of_mem _ hx)
                  · rw [huniv]
                    apply List.mem_dedup.2
                    refine List.mem_map.2 ⟨x, ?_, rfl⟩
                    refine List.mem_append_right _ ?_
                    refine List.mem_flatMap.2 ⟨fp, hfpc, ?_⟩
                    rw [← himports]
                    exact hx
                · simp only [loopMeasure, List.length_append, List.length_cons,
                    List.length_nil]
                  rw [hsplit] at hm
                  generalize c * (univ.length - (pr.length + 1)) = P at hm ⊢
                  omega

/-- C4: whenever the command line is well-formed and the root binary
parses, there is enough fuel for the resolution loop to drain its queue
— the visited set can only grow within the finite universe of names the
search directories can supply — and the program then exits with status
0.  (The C++ loop, which is this loop without fuel, therefore
terminates.) -/
theorem claim_C4_queue_drains (w : World) (sp : List String) (root : String)
    (hsp : sp ≠ []) (arch : Arch) (imports : List String)
    (ilog : List LogMsg) (h : getDllImports w root = .ok (arch, imports, ilog)) :
    ∃ fuel r, runMain w false sp [root] fuel = some r ∧ r.exitCode = 0 := by
  have hsp' : sp.isEmpty = false := by
    cases sp with
    | nil => exact absurd rfl hsp
    | cons a l => rfl
  have hinv : LoopInv (univNames w sp imports) ⟨[], imports, ilog, []⟩ := by
    refine ⟨List.nodup_nil, ?_, ?_⟩
    · intro x hx
      cases hx
    · intro x hx
      apply List.mem_dedup.2
      exact List.mem_map.2 ⟨x, List.mem_append_left _ hx, rfl⟩
  obtain ⟨s', hs'⟩ := runLoop_drains w arch sp (parentPath root) imports
    (loopMeasure (maxImports w sp + 1) (univNames w sp imports).length
      ⟨[], imports, ilog, []⟩ + 1)
    ⟨[], imports, ilog, []⟩ hinv (Nat.lt_succ_self _)
  refine ⟨loopMeasure (maxImports w sp + 1) (univNames w sp imports).length
      ⟨[], imports, ilog, []⟩ + 1, ⟨0, s'.log, s'.copies⟩, ?_, rfl⟩
  simp [runMain, hsp', h, hs']

/-! ### The program is blind to copy failures -/

theorem findImport_congr (w w' : World) (hf : w.files = w'.files)
    (hd : w.dirs = w'.dirs) (imp : String) (arch : Arch) (sp : List String) :
    findImport w imp arch sp = findImport w' imp arch sp := by
  have h1 : candidatesIn w = candidatesIn w' := by
    funext dir
    unfold candidatesIn
    rw [hd]
  have h2 : isHit w imp arch = isHit w' imp arch := by
    funext p
    unfold isHit checkFileArchitecture
    rw [hf]
  have h3 : candidates w sp = candidates w' sp := by
    unfold candidates
    rw [h1]
  rw [findImport_eq_spec w, findImport_eq_spec w', h2, h3]

theorem getDllImports_congr (w w' : World) (hf : w.files = w'.files)
    (p : String) : getDllImports w p = getDllImports w' p := by
  unfold getDllImports
  rw [hf]

/-- Changing which copies succeed changes nothing the loop observes: the
visited set, the queue, every diagnostic and the attempted copy pairs
evolve identically. -/
theorem runLoop_copy_blind (w : World) (c' : String → String → Bool)
    (arch : Arch) (sp : List String) (rootDir : String) :
    ∀ (fuel : Nat) (s1 s2 : LoopState), stripState s1 = stripState s2 →
      Option.map stripState
          (runLoop { w with copyOk := c' } arch sp rootDir fuel s1) =
        Option.map stripState (runLoop w arch sp rootDir fuel s2) := by
  intro fuel
  induction fuel with
  | zero => intro s1 s2 _; rfl
  | succ fuel ih =>
      intro s1 s2 hstrip
      obtain ⟨p1, q1, l1, c1⟩ := s1
      obtain ⟨p2, q2, l2, c2⟩ := s2
      simp only [stripState, Prod.mk.injEq] at hstrip
      obtain ⟨hp, hq, hl, hcp⟩ := hstrip
      subst hp
      subst hq
      subst hl
      simp only [stripCopies] at hcp
      cases q1 with
      | nil => simpa [runLoop, stripState, stripCopies] using hcp
      | cons front restQ =>
          simp only [runLoop]
          have hfi' : findImport { w with copyOk := c' } (lowerStr front) arch sp =
              findImport w (lowerStr front) arch sp :=
            findImport_congr { w with copyOk := c' } w rfl rfl (lowerStr front)
              arch sp
          rw [hfi']
          by_cases hmem : lowerStr front ∈ p1
          · rw [if_pos hmem, if_pos hmem]
            exact ih _ _ (by simp [stripState, stripCopies, hcp])
          · rw [if_neg hmem, if_neg hmem]
            rcases hfi : findImport w (lowerStr front) arch sp with ⟨fp, fl⟩
            dsimp only
            by_cases hfp : fp = ""
            · rw [if_pos hfp, if_pos hfp]
              exact ih _ _ (by simp [stripState, stripCopies, hcp])
            · rw [if_neg hfp, if_neg hfp]
              have hgi' : getDllImports { w with copyOk := c' } fp =
                  getDllImports w fp :=
                getDllImports_congr { w with copyOk := c' } w rfl fp
              rw [hgi']
              rcases hgi : getDllImports w fp with e | ⟨a2, imports, ilog⟩ <;>
                dsimp only
              · exact ih _ _ (by simp [stripState, stripCopies, hcp])
              · exact ih _ _ (by simp [stripState, stripCopies, hcp])

/-- C3 (amended): a copy failure is silently ignored — the program
discards `copy_file`'s error code, having already printed the planned
`source -> destination` line — so a run in which any subset of copies
fails produces the same diagnostics, the same attempted copy pairs and
the same exit status 0 as the run in which they all succeed, and keeps
processing the remaining queued items. -/
theorem claim_C3_copy_failure_silently_ignored (w : World)
    (c' : String → String → Bool) (sp : List String) (root : String)
    (hsp : sp ≠ []) (arch : Arch) (imports : List String)
    (ilog : List LogMsg)
    (h : getDllImports w root = .ok (arch, imports, ilog)) :
    ∃ fuel r r',
      runMain w false sp [root] fuel = some r ∧
      runMain { w with copyOk := c' } false sp [root] fuel = some r' ∧
      r.exitCode = 0 ∧ r'.exitCode = 0 ∧ r.log = r'.log ∧
      stripCopies r.copies = stripCopies r'.copies := by
  have hsp' : sp.isEmpty = false := by
    cases sp with
    | nil => exact absurd rfl hsp
    | cons a l => rfl
  have hinv : LoopInv (univNames w sp imports) ⟨[], imports, ilog, []⟩ := by
    refine ⟨List.nodup_nil, ?_, ?_⟩
    · intro x hx
      cases hx
    · intro x hx
      apply List.mem_dedup.2
      exact List.mem_map.2 ⟨x, List.mem_append_left _ hx, rfl⟩
  obtain ⟨s', hs'⟩ := runLoop_drains w arch sp (parentPath root) imports
    (loopMeasure (maxImports w sp + 1) (univNames w sp imports).length
      ⟨[], imports, ilog, []⟩ + 1)
    ⟨[], imports, ilog, []⟩ hinv (Nat.lt_succ_self _)
  set fuel := loopMeasure (maxImports w sp + 1) (univNames w sp imports).length
    ⟨[], imports, ilog, []⟩ + 1 with hfuel
  have hblind := runLoop_copy_blind w c' arch sp (parentPath root) fuel
    ⟨[], imports, ilog, []⟩ ⟨[], imports, ilog, []⟩ rfl
  rw [hs'] at hblind
  cases hrl : runLoop { w with copyOk := c' } arch sp (parentPath root) fuel
      ⟨[], imports, ilog, []⟩ with
  | none => rw [hrl] at hblind; cases hblind
  | some s'' =>
      rw [hrl] at hblind
      have hss : stripState s'' = stripState s' := by
        simpa [Option.map] using hblind
      simp only [stripState, Prod.mk.injEq] at hss
      obtain ⟨hpp, hqq, hll, hcc⟩ := hss
      have h' : getDllImports { w with copyOk := c' } root =
          .ok (arch, imports, ilog) := by
        rw [getDllImports_congr { w with copyOk := c' } w rfl root]
        exact h
      refine ⟨fuel, ⟨0, s'.log, s'.copies⟩, ⟨0, s''.log, s''.copies⟩, ?_, ?_,
        rfl, rfl, hll.symm, hcc.symm⟩
      · simp [runMain, hsp', h, hs']
      · simp [runMain, hsp', h', hrl]

/-- C1: starting from the fresh state of `main` (empty visited set), any
completed run of the resolution loop leaves the visited set — the exact
record of the names for which locate/copy/parse work was performed —
without duplicates and with every entry lower-case-normalised, however
many times a name was enqueued.  (Stated as preservation: any state
whose visited set is duplicate-free and lower-cased, in particular the
initial one, can only lead to such states.) -/
theorem claim_C1_each_name_processed_once (w : World) (arch : Arch)
    (sp : List String) (rootDir : String) (fuel : Nat) (s s' : LoopState)
    (h1 : s.processed.Nodup) (h2 : ∀ x ∈ s.processed, lowerStr x = x)
    (hrun : runLoop w arch sp rootDir fuel s = some s') :
    s'.processed.Nodup ∧ ∀ x ∈ s'.processed, lowerStr x = x :=
  runLoop_processed_inv w arch sp rootDir fuel s s' hrun h1 h2

/-- C3 counterexample: the concrete run in which the one copy fails
(flag `false` on the attempted copy of `libs/a.dll`) produces an output
stream identical letter for letter to the run in which the copy succeeds
— one decode diagnostic, the planned-copy line, one `Skipped:` line, and
nothing else — and exits 0.  The copy failure is therefore never
reported, refuting the claim's "the failure is reported" (the rest of
the claim — run not aborted, next items processed, exit 0 — does
hold). -/
theorem claim_C3_counterexample :
    runMain W1fail false ["libs"] ["app.exe"] 4 =
      some ⟨0, [.decodeError "bad entry", .progress "libs/a.dll" "a.dll",
        .skipped "libs/b.dll"], [("libs/a.dll", "a.dll", false)]⟩ ∧
    runMain W1 false ["libs"] ["app.exe"] 4 =
      some ⟨0, [.decodeError "bad entry", .progress "libs/a.dll" "a.dll",
        .skipped "libs/b.dll"], [("libs/a.dll", "a.dll", true)]⟩ :=
  ⟨rfl, rfl⟩

/-- Witness for C1: a run seeded with the case-variant duplicates
`A.DLL` / `a.dll` still ends with a duplicate-free, lower-cased visited
set. -/
theorem claim_C1_witness :
    ∃ s' : LoopState,
      runLoop W1 Arch.x86 ["libs"] "" 4 ⟨[], ["A.DLL", "a.dll"], [], []⟩ =
          some s' ∧
        s'.processed.Nodup ∧ ∀ x ∈ s'.processed, lowerStr x = x :=
  ⟨⟨["a.dll", "b.dll"], [],
      [.progress "libs/a.dll" "a.dll", .skipped "libs/b.dll"],
      [("libs/a.dll", "a.dll", true)]⟩, rfl,
    claim_C1_each_name_processed_once W1 Arch.x86 ["libs"] "" 4
      ⟨[], ["A.DLL", "a.dll"], [], []⟩ _ List.nodup_nil
      (fun x hx => absurd hx (List.not_mem_nil x)) rfl⟩

/-- Witness for C3 (amended): concrete instantiation with every copy
failing. -/
theorem claim_C3_witness :
    ∃ fuel r r',
      runMain W1 false ["libs"] ["app.exe"] fuel = some r ∧
      runMain { W1 with copyOk := fun _ _ => false } false ["libs"]
          ["app.exe"] fuel = some r' ∧
      r.exitCode = 0 ∧ r'.exitCode = 0 ∧ r.log = r'.log ∧
      stripCopies r.copies = stripCopies r'.copies :=
  claim_C3_copy_failure_silently_ignored W1 (fun _ _ => false) ["libs"]
    "app.exe" (by decide) Arch.x86 ["A.DLL", "a.dll"]
    [.decodeError "bad entry"] rfl

/-- Witness for C4: the concrete closure run drains its queue and exits
0. -/
theorem claim_C4_witness :
    ∃ fuel r, runMain W1 false ["libs"] ["app.exe"] fuel = some r ∧
      r.exitCode = 0 :=
  claim_C4_queue_drains W1 ["libs"] "app.exe" (by decide) Arch.x86
    ["A.DLL", "a.dll"] [.decodeError "bad entry"] rfl

/-- Witness for C5: pointing the tool at a file that is not a binary
container reports the parse error and exits 1 with no copies. -/
theorem claim_C5_witness :
    runMain W1 false ["libs"] ["notes.txt"] 9 =
      some ⟨1, [.parseError "no such file"], []⟩ :=
  claim_C5_root_parse_error_fatal W1 "notes.txt" "no such file" ["libs"]
    (by decide) rfl 9

/-- Witness for C6: the parse of `app.exe` returns its decodable names
in table order and one diagnostic for the undecodable entry. -/
theorem claim_C6_witness :
    getDllImports W1 "app.exe" = .ok (Arch.x86,
      decodedNames [.ok "A.DLL", .error "bad entry"] ++ decodedNames [.ok "a.dll"],
      ((decodeFailures [.ok "A.DLL", .error "bad entry"]).map LogMsg.decodeError) ++
        ((decodeFailures [.ok "a.dll"]).map LogMsg.decodeError)) :=
  claim_C6_imports_in_table_order W1 "app.exe"
    ⟨.x86, [.ok "A.DLL", .error "bad entry"], [.ok "a.dll"]⟩ rfl

/-- Witness for C7: an unopenable candidate filters as `false`; a
parsed candidate of the required architecture filters as `true`. -/
theorem claim_C7_witness :
    checkFileArchitecture W1 "nofile" Arch.x86 = false ∧
    checkFileArchitecture W1 "libs/a.dll" Arch.x86 = true :=
  ⟨(claim_C7_arch_filter_total W1 "nofile" Arch.x86).1 "no such file" rfl,
    (claim_C7_arch_filter_total W1 "libs/a.dll" Arch.x86).2.2
      ⟨⟨.x86, [.ok "b.dll"], []⟩, rfl, rfl⟩⟩

/-- Witness for C9: prepending the unopenable directory `nodir` changes
nothing, and a name with no architecture-matching candidate yields the
empty string. -/
theorem claim_C9_witness :
    findImport W1 "a.dll" Arch.x86 ["nodir", "libs"] =
        findImport W1 "a.dll" Arch.x86 ["libs"] ∧
      (findImport W1 "c.dll" Arch.x86 ["libs"]).1 = "" :=
  ⟨(claim_C9_unopenable_dir_silently_skipped W1 "a.dll" Arch.x86 "nodir"
      ["libs"] ["libs"]).1 rfl,
    (claim_C9_unopenable_dir_silently_skipped W1 "c.dll" Arch.x86 "nodir"
      ["libs"] ["libs"]).2 (by decide)⟩

/-- Witness for C10: with enumeration of `libs` failing after entry 0,
the locate behaves as if `libs` held only `a.dll` (so `b.dll` is not
found there even though the directory contains it). -/
theorem claim_C10_witness :
    findImport W2 "b.dll" Arch.x86 ["libs"] =
      findImport
        { W2 with dirs := fun d =>
            if d = "libs" then some ⟨["a.dll", "b.dll"].take (0 + 1), none⟩
            else W2.dirs d }
        "b.dll" Arch.x86 ["libs"] :=
  claim_C10_enum_failure_truncates W2 "b.dll" Arch.x86 "libs"
    ["a.dll", "b.dll"] 0 ["libs"] rfl

end DllBundler
